import Mathlib

/-!
Verification of the traceloop trace storage engine
(`server/storage`, BadgerDB-backed implementation).

The embedding models:

* the dynamic JSON value domain that Go's `map[string]interface{}` /
  `interface{}` payloads inhabit after `encoding/json` decoding
  (`JValue`, with objects kept as key-sorted association structures,
  mirroring Go's unordered maps whose marshalled form sorts keys;
  JSON numbers are modelled as integers, which covers every payload the
  engine itself manipulates - ids, names, span arrays - exactly);
* `json.Marshal` / `json.Unmarshal` as an executable printer and
  recursive-descent scanner over character sequences, faithful to the
  compact, HTML-escaping output Go produces and to Go's acceptance of
  whitespace, string escapes and strict number syntax on input;
* the `BadgerStore` operations `StoreTrace`, `GetTrace`, `GetTraces`,
  `GetStats` over an ordered key-value snapshot (a key-sorted list of
  raw records), exactly as written in `server/storage/badger.go`:
  key namespacing under the fixed "trace:" relative name, the per-item
  decode inside the iteration loops, the error propagation, and the
  "%.2f MB" statistics formatting.
-/

set_option linter.unusedVariables false

/-! ### The JSON value domain (decoded `interface{}` values) -/

mutual
inductive JValue where
  | null : JValue
  | bool (b : Bool) : JValue
  | num (n : Int) : JValue
  | str (s : String) : JValue
  | arr (xs : JArr) : JValue
  | obj (fs : JObj) : JValue
deriving DecidableEq, Repr

inductive JArr where
  | nil : JArr
  | cons (hd : JValue) (tl : JArr) : JArr
deriving DecidableEq, Repr

inductive JObj where
  | nil : JObj
  | cons (k : String) (v : JValue) (tl : JObj) : JObj
deriving DecidableEq, Repr
end

/-- Go byte-wise string comparison, character level (UTF-8 byte order and
code-point order coincide). -/
def charLtb (a b : Char) : Bool := a.toNat < b.toNat

def charListLtb : List Char → List Char → Bool
  | _, [] => false
  | [], _ :: _ => true
  | x :: xs, y :: ys =>
    if charLtb x y then true
    else if charLtb y x then false
    else charListLtb xs ys

def strLtb (a b : String) : Bool := charListLtb a.data b.data

/-- Go map indexing `m[k]` on the sorted association view of a map. -/
def lookupObj : JObj → String → Option JValue
  | .nil, _ => none
  | .cons k v t, key => if k = key then some v else lookupObj t key

def jarrLen : JArr → Nat
  | .nil => 0
  | .cons _ t => jarrLen t + 1

/-! ### json.Marshal: compact printing with key-sorted objects -/

def digitChar (d : Nat) : Char := Char.ofNat (48 + d)

/-- Lowercase hex digit, as used by Go's JSON string escaper. -/
def hexDigitChar (d : Nat) : Char :=
  if d < 10 then Char.ofNat (48 + d) else Char.ofNat (87 + d)

def natToCharsAux : Nat → Nat → List Char
  | 0, _ => []
  | fuel + 1, n =>
    if n < 10 then [digitChar n]
    else natToCharsAux fuel (n / 10) ++ [digitChar (n % 10)]

def natToChars (n : Nat) : List Char := natToCharsAux (n + 1) n

def intToChars (n : Int) : List Char :=
  if n < 0 then '-' :: natToChars n.natAbs else natToChars n.natAbs

/-- Go `encoding/json` string escaping (HTML escaping enabled, the
`json.Marshal` default): quote, backslash, \n \r \t by name, other control
characters and the HTML-sensitive characters by \u00xx, and the two
line separators U+2028/U+2029 by \u202x; everything else verbatim. -/
def escapeChar (c : Char) : List Char :=
  if c = '"' then ['\\', '"']
  else if c = '\\' then ['\\', '\\']
  else if c = '\n' then ['\\', 'n']
  else if c = '\r' then ['\\', 'r']
  else if c = '\t' then ['\\', 't']
  else if c.toNat < 32 || c = '<' || c = '>' || c = '&' then
    '\\' :: 'u' :: '0' :: '0' :: hexDigitChar (c.toNat / 16) :: [hexDigitChar (c.toNat % 16)]
  else if c.toNat = 8232 || c.toNat = 8233 then
    '\\' :: 'u' :: '2' :: '0' :: '2' :: [hexDigitChar (c.toNat % 16)]
  else [c]

def escapeList : List Char → List Char
  | [] => []
  | c :: t => escapeChar c ++ escapeList t

def encodeStr (s : String) : List Char := '"' :: (escapeList s.data ++ ['"'])

mutual
def jsonEncV : JValue → List Char
  | .null => ("null").data
  | .bool b => if b then ("true").data else ("false").data
  | .num n => intToChars n
  | .str s => encodeStr s
  | .arr xs => '[' :: (jsonEncA xs ++ [']'])
  | .obj fs => '\x7b' :: (jsonEncO fs ++ ['\x7d'])

def jsonEncA : JArr → List Char
  | .nil => []
  | .cons v .nil => jsonEncV v
  | .cons v (.cons w t) => jsonEncV v ++ ',' :: jsonEncA (.cons w t)

def jsonEncO : JObj → List Char
  | .nil => []
  | .cons k v .nil => encodeStr k ++ ':' :: jsonEncV v
  | .cons k v (.cons k2 w t) =>
    encodeStr k ++ ':' :: jsonEncV v ++ ',' :: jsonEncO (.cons k2 w t)
end

/-- `json.Marshal` of a decoded value.  For a `map[string]interface{}` the
object's association view is already key-sorted, matching Go's sorted-key
map output. -/
def jsonMarshal (v : JValue) : List Char := jsonEncV v

/-! ### json.Unmarshal: scanning into the decoded value domain -/

/-- JSON whitespace accepted by Go's scanner. -/
def isWsChar (c : Char) : Bool := c = ' ' || c = '\t' || c = '\n' || c = '\r'

def skipWs (cs : List Char) : List Char := cs.dropWhile isWsChar

def isDigitChar (c : Char) : Bool := 48 ≤ c.toNat && c.toNat ≤ 57

def hexVal (c : Char) : Option Nat :=
  if 48 ≤ c.toNat && c.toNat ≤ 57 then some (c.toNat - 48)
  else if 97 ≤ c.toNat && c.toNat ≤ 102 then some (c.toNat - 87)
  else if 65 ≤ c.toNat && c.toNat ≤ 70 then some (c.toNat - 55)
  else none

/-- String body scanner (after the opening quote): raw characters, the
backslash escapes Go accepts, \uXXXX with surrogate-pair combination and
Go's U+FFFD replacement of unpaired surrogates; rejects raw control
characters; stops at the closing quote. -/
def hex4 : List Char → Option (Nat × List Char)
  | h1 :: h2 :: h3 :: h4 :: rest =>
    match hexVal h1, hexVal h2, hexVal h3, hexVal h4 with
    | some a, some b, some c, some d => some (a * 4096 + b * 256 + c * 16 + d, rest)
    | _, _, _, _ => none
  | _ => none

/-- Surrogate-pair continuation after a leading high surrogate, with Go's
U+FFFD replacement when no well-formed low surrogate follows. -/
def surrTail (u : Nat) : List Char → Char × List Char
  | '\\' :: 'u' :: g1 :: g2 :: g3 :: g4 :: rest4 =>
    match hexVal g1, hexVal g2, hexVal g3, hexVal g4 with
    | some p, some q, some r2, some s2 =>
      let u2 := p * 4096 + q * 256 + r2 * 16 + s2
      if 56320 ≤ u2 && u2 ≤ 57343 then
        (Char.ofNat (65536 + (u - 55296) * 1024 + (u2 - 56320)), rest4)
      else ('\uFFFD', '\\' :: 'u' :: g1 :: g2 :: g3 :: g4 :: rest4)
    | _, _, _, _ => ('\uFFFD', '\\' :: 'u' :: g1 :: g2 :: g3 :: g4 :: rest4)
  | r3 => ('\uFFFD', r3)

/-- One backslash escape (the characters after the backslash): the named
escapes, and \uXXXX with surrogate handling. -/
def unescapeOne : List Char → Option (Char × List Char)
  | [] => none
  | e :: rest2 =>
    if e = '"' then some ('"', rest2)
    else if e = '\\' then some ('\\', rest2)
    else if e = '/' then some ('/', rest2)
    else if e = 'b' then some ('\x08', rest2)
    else if e = 'f' then some ('\x0c', rest2)
    else if e = 'n' then some ('\n', rest2)
    else if e = 'r' then some ('\r', rest2)
    else if e = 't' then some ('\t', rest2)
    else if e = 'u' then
      match hex4 rest2 with
      | some (u, rest3) =>
        if 55296 ≤ u && u ≤ 56319 then some (surrTail u rest3)
        else if 56320 ≤ u && u ≤ 57343 then some ('\uFFFD', rest3)
        else some (Char.ofNat u, rest3)
      | none => none
    else none

def parseStrAux : Nat → List Char → List Char → Option (String × List Char)
  | 0, _, _ => none
  | _ + 1, _, [] => none
  | fuel + 1, acc, c :: rest =>
    if c = '"' then some (String.mk acc.reverse, rest)
    else if c = '\\' then
      match unescapeOne rest with
      | some (d, rest2) => parseStrAux fuel (d :: acc) rest2
      | none => none
    else if c.toNat < 32 then none
    else parseStrAux fuel (c :: acc) rest

/-- Complete string-body scan: fuel one past the remaining length always
suffices, since every step consumes at least one character. -/
def parseStr (cs : List Char) : Option (String × List Char) :=
  parseStrAux (cs.length + 1) [] cs

def digitsVal (l : List Char) : Nat :=
  l.foldl (fun a c => a * 10 + (c.toNat - 48)) 0

/-- Digit-run scanner with JSON's no-leading-zero rule. -/
def numDigits (cs : List Char) : Option (Nat × List Char) :=
  match cs.takeWhile isDigitChar with
  | [] => none
  | c :: ds =>
    if c = '0' && !ds.isEmpty then none
    else some (digitsVal (c :: ds), cs.dropWhile isDigitChar)

/-- JSON number scanner, restricted to the integral numbers of the model
(a fraction or exponent marker simply ends up in the unconsumed tail and
is rejected by the top-level trailing-data check). -/
def parseNum (cs : List Char) : Option (JValue × List Char) :=
  match cs with
  | [] => none
  | c :: cs1 =>
    if c = '-' then
      match numDigits cs1 with
      | some (n, rest) => some (.num (-(n : Int)), rest)
      | none => none
    else
      match numDigits (c :: cs1) with
      | some (n, rest) => some (.num ((n : Int)), rest)
      | none => none

/-- Sorted insertion into a decoded object, keeping an already-present
binding: building the map back-to-front this realises Go's
"later duplicate key wins" `m[k] = v` semantics. -/
def insObj (k : String) (v : JValue) : JObj → JObj
  | .nil => .cons k v .nil
  | .cons k2 v2 t =>
    if strLtb k k2 then .cons k v (.cons k2 v2 t)
    else if k = k2 then .cons k2 v2 t
    else .cons k2 v2 (insObj k v t)

mutual
def parseVal : Nat → List Char → Option (JValue × List Char)
  | 0, _ => none
  | fuel + 1, cs =>
    match skipWs cs with
    | [] => none
    | c :: rest =>
      if c = 'n' then
        if rest.take 3 = ['u', 'l', 'l'] then some (.null, rest.drop 3) else none
      else if c = 't' then
        if rest.take 3 = ['r', 'u', 'e'] then some (.bool true, rest.drop 3) else none
      else if c = 'f' then
        if rest.take 4 = ['a', 'l', 's', 'e'] then some (.bool false, rest.drop 4) else none
      else if c = '"' then
        match parseStr rest with
        | some (s, r) => some (.str s, r)
        | none => none
      else if c = '[' then parseArrElems fuel (skipWs rest)
      else if c = '\x7b' then parseObjFields fuel (skipWs rest)
      else parseNum (c :: rest)

def parseArrElems : Nat → List Char → Option (JValue × List Char)
  | 0, _ => none
  | fuel + 1, cs =>
    match cs with
    | [] => none
    | c :: r =>
      if c = ']' then some (.arr .nil, r)
      else
        match parseVal fuel (c :: r) with
        | some (v, cs1) =>
          match skipWs cs1 with
          | ',' :: cs2 =>
            match parseArrElems fuel (skipWs cs2) with
            | some (.arr vs, r2) => some (.arr (.cons v vs), r2)
            | _ => none
          | ']' :: r2 => some (.arr (.cons v .nil), r2)
          | _ => none
        | none => none

def parseObjFields : Nat → List Char → Option (JValue × List Char)
  | 0, _ => none
  | fuel + 1, cs =>
    match cs with
    | [] => none
    | c :: r =>
      if c = '\x7d' then some (.obj .nil, r)
      else if c = '"' then
        match parseStr r with
        | some (k, cs1) =>
          match skipWs cs1 with
          | ':' :: cs2 =>
            match parseVal fuel cs2 with
            | some (v, cs3) =>
              match skipWs cs3 with
              | ',' :: cs4 =>
                match parseObjFields fuel (skipWs cs4) with
                | some (.obj fs, r2) => some (.obj (insObj k v fs), r2)
                | _ => none
              | '\x7d' :: r2 => some (.obj (insObj k v .nil), r2)
              | _ => none
            | none => none
          | _ => none
        | none => none
      else none
end

/-- `json.Unmarshal` of a complete byte record: scan one value, then
require only whitespace to remain. -/
def jsonUnmarshal (bs : List Char) : Option JValue :=
  match parseVal (2 * bs.length + 2) bs with
  | some (v, rest) => if skipWs rest = [] then some v else none
  | none => none

/-- `json.Unmarshal(data, &m)` for `m : map[string]interface{}`: the
record must be a JSON object (or literal null, which leaves the nil map
in place without error). -/
def jsonUnmarshalMap (bs : List Char) : Option JObj :=
  match jsonUnmarshal bs with
  | some (.obj fs) => some fs
  | some .null => some .nil
  | _ => none

/-! ### The BadgerStore trace store (server/storage, real implementation) -/

/-- The persistence snapshot: the ordered key space of the embedded
engine, keys in byte order, as seen by point gets and prefix scans. -/
abbrev KV := List (String × List Char)

inductive StoreErr where
  | traceIdRequired
  | unmarshalFailed
  | traceNotFound
deriving DecidableEq, Repr

def exceptDecEq {e a : Type} [DecidableEq e] [DecidableEq a] : DecidableEq (Except e a) := by
  intro x y
  cases x <;> cases y
  case error.error u v =>
    exact if h : u = v then .isTrue (by rw [h]) else .isFalse (by intro hc; cases hc; exact h rfl)
  case error.ok u v => exact .isFalse (by intro hc; cases hc)
  case ok.error u v => exact .isFalse (by intro hc; cases hc)
  case ok.ok u v =>
    exact if h : u = v then .isTrue (by rw [h]) else .isFalse (by intro hc; cases hc; exact h rfl)

instance {e a : Type} [DecidableEq e] [DecidableEq a] : DecidableEq (Except e a) := exceptDecEq

def kvGet : KV → String → Option (List Char)
  | [], _ => none
  | (k, v) :: t, key => if k = key then some v else kvGet t key

/-- Durable put: replaces the record at an existing key, otherwise
inserts at the key's position in the engine's byte order. -/
def kvPut : KV → String → List Char → KV
  | [], key, val => [(key, val)]
  | (k, v) :: t, key, val =>
    if strLtb key k then (key, val) :: (k, v) :: t
    else if key = k then (key, val) :: t
    else (k, v) :: kvPut t key val

def kvSortedB : KV → Bool
  | [] => true
  | [_] => true
  | (k1, _) :: (k2, v2) :: t => strLtb k1 k2 && kvSortedB ((k2, v2) :: t)

/-- Both the iterator's Prefix option and the in-loop
string(key[:6]) == "trace:" comparison compute this test. -/
def isTraceKey (key : String) : Bool := key.data.take 6 == ("trace:").data

def traceKey (id : String) : String := "trace:" ++ id

/-- The iterator stream for opts.Prefix = "trace:": the snapshot's
entries whose keys carry the namespace, in key order. -/
def scanStore (st : KV) : List (String × List Char) :=
  st.filter fun e => isTraceKey e.1

/-- The GetTraces iteration: loop while the iterator is valid and
count < limit; per item check the key, unmarshal the stored bytes
(an unmarshal failure aborts the whole listing), append, count++. -/
def getTracesLoop : List (String × List Char) → Int → Int → Option (List JObj)
  | [], _, _ => some []
  | (k, v) :: rest, count, limit =>
    if count < limit then
      if isTraceKey k then
        match jsonUnmarshalMap v with
        | none => none
        | some t =>
          match getTracesLoop rest (count + 1) limit with
          | some ts => some (t :: ts)
          | none => none
      else getTracesLoop rest count limit
    else some []

def GetTraces (st : KV) (limit : Int) : Except StoreErr (List JObj) :=
  match getTracesLoop (scanStore st) 0 limit with
  | some ts => .ok ts
  | none => .error .unmarshalFailed

def GetTrace (st : KV) (id : String) : Except StoreErr JObj :=
  match kvGet st (traceKey id) with
  | none => .error .traceNotFound
  | some val =>
    match jsonUnmarshalMap val with
    | some t => .ok t
    | none => .error .unmarshalFailed

/-- StoreTrace: the type assertion trace["trace_id"].(string) succeeds
for any string value (an empty string included) and fails for an absent
or non-string value; then marshal and put under "trace:" + id. -/
def StoreTrace (st : KV) (trace : JObj) : Except StoreErr Unit × KV :=
  match lookupObj trace ("trace_id") with
  | some (.str id) => (.ok (), kvPut st (traceKey id) (jsonMarshal (.obj trace)))
  | _ => (.error .traceIdRequired, st)

def utf8Len (c : Char) : Nat :=
  if c.toNat < 128 then 1
  else if c.toNat < 2048 then 2
  else if c.toNat < 65536 then 3
  else 4

/-- len(val) of the raw stored record, in UTF-8 bytes. -/
def byteLen (bs : List Char) : Nat := (bs.map utf8Len).sum

/-- The spans type assertion trace["spans"].([]interface{}): an array
value contributes its length, anything else contributes nothing. -/
def spanCount (t : JObj) : Nat :=
  match lookupObj t ("spans") with
  | some (.arr xs) => jarrLen xs
  | _ => 0

/-- The GetStats full scan: per record a trace counter increment, the
span count of the decoded record, and the raw byte length; an
unmarshal failure aborts the aggregation with the error. -/
def getStatsLoop : List (String × List Char) → Option (Nat × Nat × Nat)
  | [] => some (0, 0, 0)
  | (k, v) :: rest =>
    if isTraceKey k then
      match jsonUnmarshalMap v with
      | none => none
      | some t =>
        match getStatsLoop rest with
        | some (nt, ns, sz) => some (nt + 1, ns + spanCount t, sz + byteLen v)
        | none => none
    else getStatsLoop rest

def roundHalfEven (num den : Nat) : Nat :=
  let q := num / den
  let r := num % den
  if 2 * r < den then q
  else if den < 2 * r then q + 1
  else if q % 2 = 0 then q
  else q + 1

def pad2 (n : Nat) : String :=
  if n < 10 then "0" ++ Nat.repr n else Nat.repr n

/-- fmt.Sprintf("%.2f MB", float64(size)/(1024*1024)): dividing an
integer below 2^53 by a power of two is exact in float64, and Go's
fixed two-digit formatting rounds the exact value to nearest with ties
to even. -/
def formatMB (size : Nat) : String :=
  let h := roundHalfEven (size * 100) (1024 * 1024)
  Nat.repr (h / 100) ++ "." ++ pad2 (h % 100) ++ " MB"

/-- GetStats result: the map[string]interface{} literal with keys
total_traces, total_spans and the human-readable storage_size, in its
key-sorted association view. -/
def GetStats (st : KV) : Except StoreErr JObj :=
  match getStatsLoop (scanStore st) with
  | none => .error .unmarshalFailed
  | some (nt, ns, sz) =>
    .ok (.cons ("storage_size") (.str (formatMB sz))
        (.cons ("total_spans") (.num ((ns : Int)))
        (.cons ("total_traces") (.num ((nt : Int))) .nil)))

/-! ### Canonical (Go-map-representable) values and scan sizes -/

def keyLtHead (k : String) : JObj → Bool
  | .nil => true
  | .cons k2 _ _ => strLtb k k2

mutual
def canonV : JValue → Bool
  | .arr xs => canonA xs
  | .obj fs => canonO fs
  | _ => true

def canonA : JArr → Bool
  | .nil => true
  | .cons v t => canonV v && canonA t

def canonO : JObj → Bool
  | .nil => true
  | .cons k v t => canonV v && (canonO t && keyLtHead k t)
end

mutual
def jsizeV : JValue → Nat
  | .arr xs => 1 + jsizeA xs
  | .obj fs => 1 + jsizeO fs
  | _ => 1

def jsizeA : JArr → Nat
  | .nil => 1
  | .cons v t => 1 + jsizeV v + jsizeA t

def jsizeO : JObj → Nat
  | .nil => 1
  | .cons _ v t => 1 + jsizeV v + jsizeO t
end

/-! ### The printer-scanner round trip -/

def notDigitStart (r : List Char) : Prop :=
  ∀ c, r.head? = some c → isDigitChar c = false

/-- The textual tail that follows one array element: a separating comma
before the next element, or nothing before the closing bracket. -/
def arrSep : JArr → List Char
  | .nil => []
  | .cons w t => ',' :: jsonEncA (.cons w t)

/-- The textual tail that follows one object member. -/
def objSep : JObj → List Char
  | .nil => []
  | .cons k w t => ',' :: jsonEncO (.cons k w t)

/-! ### Key-value snapshot lemmas -/

def countKey : KV → String → Nat
  | [], _ => 0
  | (k, _) :: t, key => (if k = key then 1 else 0) + countKey t key

/-- Decoded view of one stored record (meaningful when it decodes). -/
def decodedRec (e : String × List Char) : JObj := (jsonUnmarshalMap e.2).getD .nil

def spanSum (l : List (String × List Char)) : Nat :=
  (l.map fun e => spanCount (decodedRec e)).sum

def sizeSum (l : List (String × List Char)) : Nat :=
  (l.map fun e => byteLen e.2).sum

/-- Storing a list of traces in sequence (each call feeding the next),
as the fold of StoreTrace's state component. -/
def storeAll (ts : List JObj) (st : KV) : KV :=
  ts.foldl (fun kv t => (StoreTrace kv t).2) st

/-! ### Concrete fixtures -/

/-- A minimal well-formed trace value: a spans array and a trace id,
in the key-sorted association view of the Go map. -/
def exTrace (id : String) (spans : JArr) : JObj :=
  .cons ("spans") (.arr spans) (.cons ("trace_id") (.str id) .nil)

def corruptBytes : List Char := ['c', 'o', 'r', 'r', 'u', 'p', 't']

def c1State : KV :=
  [(traceKey ("a"), jsonMarshal (.obj (exTrace ("a") .nil))),
   (traceKey ("b"), corruptBytes),
   (traceKey ("c"), jsonMarshal (.obj (exTrace ("c") .nil)))]

def c2State : KV := [(traceKey ("a"), jsonMarshal (.obj (exTrace ("a") .nil)))]

def c3Trace : JObj := .cons ("trace_id") (.str ("")) .nil

def c4State : KV := [(traceKey ("a"), jsonMarshal (.obj (exTrace ("a") (.cons .null .nil))))]

def c5t1 : JObj := exTrace ("t1") (.cons (.str ("a")) (.cons (.str ("b")) .nil))

def c5t2 : JObj := exTrace ("t1") (.cons (.str ("a")) .nil)

def c6ps : List (String × JObj) :=
  [(("t1"), exTrace ("t1") (.cons .null (.cons .null .nil))),
   (("t2"), exTrace ("t2") (.cons .null .nil))]

def c7State : KV :=
  [(traceKey ("a"), jsonMarshal (.obj (exTrace ("a") .nil))),
   (traceKey ("b"), jsonMarshal (.obj (exTrace ("b") (.cons .null .nil))))]

/-- A store state with a decodable record and a byte-corrupt record:
two records are stored, so any limit of at least two covers them all. -/
def c7BadState : KV :=
  [(traceKey ("a"), jsonMarshal (.obj (exTrace ("a") .nil))),
   (traceKey ("b"), corruptBytes)]

def c10Trace : JObj := .cons ("trace_id") (.num 7) .nil

/-! ### Basic character and digit lemmas -/

theorem uintToNatInj (x y : UInt32) (h : x.toNat = y.toNat) : x = y := by
  cases x; cases y
  simp only [UInt32.toNat] at h
  congr 1
  exact BitVec.eq_of_toNat_eq h

theorem charToNatInj (a b : Char) (h : a.toNat = b.toNat) : a = b := by
  apply Char.ext
  exact uintToNatInj _ _ h

theorem digitChar_toNat (d : Nat) (h : d < 10) : (digitChar d).toNat = 48 + d := by
  interval_cases d <;> decide

theorem digitChar_isDigit (d : Nat) (h : d < 10) : isDigitChar (digitChar d) = true := by
  interval_cases d <;> decide

theorem digitChar_ne_zeroChar (d : Nat) (h1 : d < 10) (h2 : d ≠ 0) : digitChar d ≠ '0' := by
  interval_cases d <;> simp_all <;> decide

theorem isDigitChar_ne (c x : Char) (hc : isDigitChar c = true) (hx : isDigitChar x = false) :
    c ≠ x := by
  intro h; rw [h] at hc; rw [hc] at hx; cases hx

/-! ### Decimal printing and scanning of naturals -/

theorem natToCharsAux_ne_nil (fuel n : Nat) (h : n < fuel) : natToCharsAux fuel n ≠ [] := by
  cases fuel with
  | zero => omega
  | succ f =>
    rw [natToCharsAux]
    by_cases h10 : n < 10
    · simp [h10]
    · simp [h10]

theorem natToCharsAux_digits (fuel : Nat) : ∀ n, n < fuel →
    ∀ c ∈ natToCharsAux fuel n, isDigitChar c = true := by
  induction fuel with
  | zero => intro n h; omega
  | succ f ih =>
    intro n h c hmem
    rw [natToCharsAux] at hmem
    by_cases h10 : n < 10
    · simp [h10] at hmem
      rw [hmem]
      exact digitChar_isDigit n h10
    · simp [h10] at hmem
      rcases hmem with hmem | hmem
      · exact ih (n / 10) (by omega) c hmem
      · rw [hmem]
        exact digitChar_isDigit (n % 10) (Nat.mod_lt n (by omega))

theorem digitsVal_append_digit (l : List Char) (c : Char) :
    digitsVal (l ++ [c]) = digitsVal l * 10 + (c.toNat - 48) := by
  simp [digitsVal, List.foldl_append]

theorem natToCharsAux_val (fuel : Nat) : ∀ n, n < fuel →
    digitsVal (natToCharsAux fuel n) = n := by
  induction fuel with
  | zero => intro n h; omega
  | succ f ih =>
    intro n h
    rw [natToCharsAux]
    by_cases h10 : n < 10
    · simp [h10, digitsVal, digitChar_toNat n h10]
    · simp only [h10, if_false]
      rw [digitsVal_append_digit, ih (n / 10) (by omega),
        digitChar_toNat (n % 10) (Nat.mod_lt n (by omega))]
      omega

theorem natToCharsAux_head_ne_zero (fuel : Nat) : ∀ n, n < fuel → 0 < n →
    ∀ c l, natToCharsAux fuel n = c :: l → c ≠ '0' := by
  induction fuel with
  | zero => intro n h; omega
  | succ f ih =>
    intro n h hpos c l heq
    rw [natToCharsAux] at heq
    by_cases h10 : n < 10
    · simp [h10] at heq
      rw [← heq.1]
      exact digitChar_ne_zeroChar n h10 (by omega)
    · simp only [h10, if_false] at heq
      rcases hh : natToCharsAux f (n / 10) with _ | ⟨c2, l2⟩
      · exact absurd hh (natToCharsAux_ne_nil f (n / 10) (by omega))
      · rw [hh] at heq
        simp at heq
        rw [← heq.1]
        exact ih (n / 10) (by omega) (by omega) c2 l2 hh

theorem natToChars_ne_nil (n : Nat) : natToChars n ≠ [] :=
  natToCharsAux_ne_nil (n + 1) n (by omega)

theorem natToChars_digits (n : Nat) : ∀ c ∈ natToChars n, isDigitChar c = true :=
  natToCharsAux_digits (n + 1) n (by omega)

theorem natToChars_val (n : Nat) : digitsVal (natToChars n) = n :=
  natToCharsAux_val (n + 1) n (by omega)

theorem natToChars_head_ne_zero (n : Nat) (hpos : 0 < n) :
    ∀ c l, natToChars n = c :: l → c ≠ '0' :=
  natToCharsAux_head_ne_zero (n + 1) n (by omega) hpos

/-- A list of characters all satisfying p, followed by a tail whose head
fails p, splits cleanly under takeWhile / dropWhile. -/
theorem takeWhile_app_stop {p : Char → Bool} (l : List Char) (r : List Char)
    (hl : ∀ c ∈ l, p c = true) (hr : ∀ c, r.head? = some c → p c = false) :
    (l ++ r).takeWhile p = l ∧ (l ++ r).dropWhile p = r := by
  induction l with
  | nil =>
    simp only [List.nil_append]
    cases r with
    | nil => simp
    | cons c t =>
      have := hr c rfl
      simp [List.takeWhile, List.dropWhile, this]
  | cons c t ih =>
    have hc := hl c (by simp)
    have ht := ih (fun x hx => hl x (by simp [hx]))
    simp [List.takeWhile, List.dropWhile, hc, ht.1, ht.2]

theorem numDigits_natToChars (n : Nat) (r : List Char)
    (hr : ∀ c, r.head? = some c → isDigitChar c = false) :
    numDigits (natToChars n ++ r) = some (n, r) := by
  obtain ⟨htake, hdrop⟩ := takeWhile_app_stop (natToChars n) r (natToChars_digits n) hr
  rw [numDigits, htake, hdrop]
  rcases hh : natToChars n with _ | ⟨c, ds⟩
  · exact absurd hh (natToChars_ne_nil n)
  · by_cases hz : c = '0' ∧ ds ≠ []
    · exfalso
      rcases hz with ⟨hz1, hz2⟩
      by_cases hn : 0 < n
      · exact natToChars_head_ne_zero n hn c ds hh hz1
      · have hn0 : n = 0 := by omega
        subst hn0
        have h0 : natToChars 0 = ['0'] := by decide
        rw [h0] at hh
        simp at hh
        exact hz2 hh.2
    · have hcond : (c = '0' && !ds.isEmpty) = false := by
        rcases Decidable.em (c = '0') with h1 | h1
        · have : ds = [] := by tauto
          simp [this]
        · simp [h1]
      simp only [hcond, if_false, Bool.false_eq_true]
      rw [← hh, natToChars_val n]

theorem parseNum_intToChars (n : Int) (r : List Char)
    (hr : ∀ c, r.head? = some c → isDigitChar c = false) :
    parseNum (intToChars n ++ r) = some (.num n, r) := by
  by_cases hneg : n < 0
  · have heq : intToChars n = '-' :: natToChars n.natAbs := by simp [intToChars, hneg]
    rw [heq, List.cons_append, parseNum]
    rw [if_pos rfl, numDigits_natToChars n.natAbs r hr]
    show some (JValue.num (-((n.natAbs : Int))), r) = some (JValue.num n, r)
    have h3 : -((n.natAbs : Int)) = n := by omega
    rw [h3]
  · have heq : intToChars n = natToChars n.natAbs := by simp [intToChars, hneg]
    rcases hh : natToChars n.natAbs with _ | ⟨c, ds⟩
    · exact absurd hh (natToChars_ne_nil _)
    · have hcd : isDigitChar c = true := natToChars_digits n.natAbs c (by rw [hh]; simp)
      have hcm : c ≠ '-' := isDigitChar_ne c '-' hcd (by decide)
      have hnum : numDigits (c :: (ds ++ r)) = some (n.natAbs, r) := by
        have h2 := numDigits_natToChars n.natAbs r hr
        rw [hh] at h2
        exact h2
      rw [heq, hh, List.cons_append, parseNum]
      rw [if_neg hcm, hnum]
      show some (JValue.num ((n.natAbs : Int)), r) = some (JValue.num n, r)
      have h3 : ((n.natAbs : Int)) = n := by omega
      rw [h3]

/-! ### String escape printing and scanning -/

theorem hexDigitChar_val (d : Nat) (h : d < 16) : hexVal (hexDigitChar d) = some d := by
  interval_cases d <;> decide

theorem escapeChar_length (c : Char) : 1 ≤ (escapeChar c).length := by
  unfold escapeChar
  split
  · simp
  · split
    · simp
    · split
      · simp
      · split
        · simp
        · split
          · simp
          · split
            · simp
            · split <;> simp

theorem escapeList_length (l : List Char) : l.length ≤ (escapeList l).length := by
  induction l with
  | nil => simp [escapeList]
  | cons c t ih =>
    rw [escapeList]
    simp only [List.length_append, List.length_cons]
    have := escapeChar_length c
    omega

theorem unescapeOne_u00 (c : Char) (rest : List Char) (hlt : c.toNat < 64) :
    unescapeOne ('u' :: '0' :: '0' :: hexDigitChar (c.toNat / 16)
        :: hexDigitChar (c.toNat % 16) :: rest) = some (c, rest) := by
  have hv1 : hexVal (hexDigitChar (c.toNat / 16)) = some (c.toNat / 16) :=
    hexDigitChar_val _ (by omega)
  have hv2 : hexVal (hexDigitChar (c.toNat % 16)) = some (c.toNat % 16) :=
    hexDigitChar_val _ (by omega)
  have h4 : hex4 ('0' :: '0' :: hexDigitChar (c.toNat / 16)
      :: hexDigitChar (c.toNat % 16) :: rest) = some (c.toNat, rest) := by
    rw [hex4, (by decide : hexVal '0' = some 0), hv1, hv2]
    show some (0 * 4096 + 0 * 256 + c.toNat / 16 * 16 + c.toNat % 16, rest) = some (c.toNat, rest)
    congr 1
    congr 1
    omega
  rw [unescapeOne]
  rw [if_neg (by decide), if_neg (by decide), if_neg (by decide), if_neg (by decide),
    if_neg (by decide), if_neg (by decide), if_neg (by decide), if_neg (by decide),
    if_pos rfl, h4]
  show (if (55296 ≤ c.toNat && c.toNat ≤ 56319) = true then some (surrTail c.toNat rest)
    else if (56320 ≤ c.toNat && c.toNat ≤ 57343) = true then some ('\uFFFD', rest)
    else some (Char.ofNat c.toNat, rest)) = some (c, rest)
  rw [if_neg (by simp; omega), if_neg (by simp; omega), Char.ofNat_toNat]

theorem unescapeOne_u202 (c : Char) (rest : List Char)
    (h : c.toNat = 8232 ∨ c.toNat = 8233) :
    unescapeOne ('u' :: '2' :: '0' :: '2' :: hexDigitChar (c.toNat % 16) :: rest)
      = some (c, rest) := by
  have hv2 : hexVal (hexDigitChar (c.toNat % 16)) = some (c.toNat % 16) :=
    hexDigitChar_val _ (by omega)
  have h4 : hex4 ('2' :: '0' :: '2' :: hexDigitChar (c.toNat % 16) :: rest)
      = some (c.toNat, rest) := by
    rw [hex4, (by decide : hexVal '2' = some 2), (by decide : hexVal '0' = some 0), hv2]
    show some (2 * 4096 + 0 * 256 + 2 * 16 + c.toNat % 16, rest) = some (c.toNat, rest)
    congr 1
    congr 1
    omega
  rw [unescapeOne]
  rw [if_neg (by decide), if_neg (by decide), if_neg (by decide), if_neg (by decide),
    if_neg (by decide), if_neg (by decide), if_neg (by decide), if_neg (by decide),
    if_pos rfl, h4]
  show (if (55296 ≤ c.toNat && c.toNat ≤ 56319) = true then some (surrTail c.toNat rest)
    else if (56320 ≤ c.toNat && c.toNat ≤ 57343) = true then some ('\uFFFD', rest)
    else some (Char.ofNat c.toNat, rest)) = some (c, rest)
  rw [if_neg (by simp; omega), if_neg (by simp; omega), Char.ofNat_toNat]

theorem parseStrAux_escapeChar (c : Char) (fuel : Nat) (acc rest : List Char) :
    parseStrAux (fuel + 1) acc (escapeChar c ++ rest) = parseStrAux fuel (c :: acc) rest := by
  by_cases h1 : c = '"'
  · subst h1
    rw [(by decide : escapeChar '"' = ['\\', '"'])]
    simp [parseStrAux, unescapeOne]
  · by_cases h2 : c = '\\'
    · subst h2
      rw [(by decide : escapeChar '\\' = ['\\', '\\'])]
      simp [parseStrAux, unescapeOne]
    · by_cases h3 : c = '\n'
      · subst h3
        rw [(by decide : escapeChar '\n' = ['\\', 'n'])]
        simp [parseStrAux, unescapeOne]
      · by_cases h4 : c = '\r'
        · subst h4
          rw [(by decide : escapeChar '\r' = ['\\', 'r'])]
          simp [parseStrAux, unescapeOne]
        · by_cases h5 : c = '\t'
          · subst h5
            rw [(by decide : escapeChar '\t' = ['\\', 't'])]
            simp [parseStrAux, unescapeOne]
          · by_cases h6 : (c.toNat < 32 || c = '<' || c = '>' || c = '&') = true
            · have he : escapeChar c =
                  '\\' :: 'u' :: '0' :: '0' :: hexDigitChar (c.toNat / 16)
                    :: [hexDigitChar (c.toNat % 16)] := by
                rw [escapeChar, if_neg h1, if_neg h2, if_neg h3, if_neg h4, if_neg h5, if_pos h6]
              have hlt : c.toNat < 64 := by
                simp only [Bool.or_eq_true, decide_eq_true_eq] at h6
                rcases h6 with ((h | h) | h) | h
                · omega
                · rw [h]; decide
                · rw [h]; decide
                · rw [h]; decide
              rw [he]
              simp only [List.cons_append, List.nil_append]
              rw [parseStrAux.eq_3]
              rw [if_neg (by decide), if_pos rfl, unescapeOne_u00 c rest hlt]
            · by_cases h7 : (c.toNat = 8232 || c.toNat = 8233) = true
              · have he : escapeChar c =
                    '\\' :: 'u' :: '2' :: '0' :: '2' :: [hexDigitChar (c.toNat % 16)] := by
                  rw [escapeChar, if_neg h1, if_neg h2, if_neg h3, if_neg h4, if_neg h5,
                    if_neg h6, if_pos h7]
                have h7n : c.toNat = 8232 ∨ c.toNat = 8233 := by
                  simp only [Bool.or_eq_true, decide_eq_true_eq] at h7
                  exact h7
                rw [he]
                simp only [List.cons_append, List.nil_append]
                rw [parseStrAux.eq_3]
                rw [if_neg (by decide), if_pos rfl, unescapeOne_u202 c rest h7n]
              · have he : escapeChar c = [c] := by
                  rw [escapeChar, if_neg h1, if_neg h2, if_neg h3, if_neg h4, if_neg h5,
                    if_neg h6, if_neg h7]
                have hge : ¬(c.toNat < 32) := by
                  simp only [Bool.or_eq_true, decide_eq_true_eq] at h6
                  tauto
                rw [he]
                simp only [List.cons_append, List.nil_append]
                rw [parseStrAux.eq_3]
                rw [if_neg h1, if_neg h2, if_neg (by simpa using hge)]

theorem parseStrAux_escapeList (l : List Char) : ∀ fuel acc rest, l.length < fuel →
    parseStrAux fuel acc (escapeList l ++ ('"' :: rest))
      = some (String.mk (acc.reverse ++ l), rest) := by
  induction l with
  | nil =>
    intro fuel acc rest hf
    cases fuel with
    | zero => omega
    | succ f =>
      rw [escapeList]
      simp only [List.nil_append]
      rw [parseStrAux.eq_3, if_pos rfl]
      simp
  | cons c t ih =>
    intro fuel acc rest hf
    cases fuel with
    | zero => omega
    | succ f =>
      rw [escapeList]
      rw [List.append_assoc]
      rw [parseStrAux_escapeChar]
      rw [ih f (c :: acc) rest (by simp at hf ⊢; omega)]
      simp

theorem stringMkData (s : String) : String.mk s.data = s := by
  cases s
  rfl

theorem parseStr_escaped (s : String) (rest : List Char) :
    parseStr (escapeList s.data ++ ('"' :: rest)) = some (s, rest) := by
  rw [parseStr]
  have hlen : s.data.length < (escapeList s.data ++ ('"' :: rest)).length + 1 := by
    rw [List.length_append]
    have := escapeList_length s.data
    simp only [List.length_cons]
    omega
  rw [parseStrAux_escapeList s.data _ [] rest hlen]
  simp [stringMkData]

theorem intToChars_ne_nil (n : Int) : intToChars n ≠ [] := by
  rw [intToChars]
  by_cases h : n < 0
  · simp [h]
  · simp [h, natToChars_ne_nil]

theorem jsonEncV_ne_nil (v : JValue) : jsonEncV v ≠ [] := by
  cases v with
  | null => simp [jsonEncV]
  | bool b => cases b <;> simp [jsonEncV]
  | num n => rw [jsonEncV]; exact intToChars_ne_nil n
  | str s => simp [jsonEncV, encodeStr]
  | arr xs => simp [jsonEncV]
  | obj fs => simp [jsonEncV]

mutual
theorem jsizeV_le (v : JValue) : jsizeV v ≤ 2 * (jsonEncV v).length := by
  cases v with
  | null => simp [jsizeV, jsonEncV]
  | bool b => cases b <;> simp [jsizeV, jsonEncV]
  | num n =>
    have hj : jsizeV (.num n) = 1 := rfl
    rw [hj]
    rcases hh : intToChars n with _ | ⟨c, t⟩
    · exact absurd hh (intToChars_ne_nil n)
    · rw [jsonEncV, hh]
      simp
      omega
  | str s => simp [jsizeV, jsonEncV, encodeStr]; omega
  | arr xs =>
    have := jsizeA_le xs
    rw [jsizeV, jsonEncV]
    simp only [List.length_cons, List.length_append, List.length_singleton]
    omega
  | obj fs =>
    have := jsizeO_le fs
    rw [jsizeV, jsonEncV]
    simp only [List.length_cons, List.length_append, List.length_singleton]
    omega

theorem jsizeA_le (xs : JArr) : jsizeA xs ≤ 2 * (jsonEncA xs).length + 2 := by
  cases xs with
  | nil => simp [jsizeA, jsonEncA]
  | cons v t =>
    cases t with
    | nil =>
      have := jsizeV_le v
      rw [jsizeA, jsizeA, jsonEncA]
      omega
    | cons w t2 =>
      have h1 := jsizeV_le v
      have h2 := jsizeA_le (JArr.cons w t2)
      rw [jsizeA, jsonEncA]
      simp only [List.length_append, List.length_cons]
      omega

theorem jsizeO_le (fs : JObj) : jsizeO fs ≤ 2 * (jsonEncO fs).length + 2 := by
  cases fs with
  | nil => simp [jsizeO, jsonEncO]
  | cons k v t =>
    cases t with
    | nil =>
      have := jsizeV_le v
      rw [jsizeO, jsizeO, jsonEncO]
      simp only [List.length_append, List.length_cons]
      omega
    | cons k2 w t2 =>
      have h1 := jsizeV_le v
      have h2 := jsizeO_le (JObj.cons k2 w t2)
      rw [jsizeO, jsonEncO]
      simp only [List.length_append, List.length_cons]
      omega
end

/-! ### Head characters of encoded values -/

theorem digit_not_ws (c : Char) (h : isDigitChar c = true) : isWsChar c = false := by
  by_contra hw
  simp only [Bool.not_eq_false, isWsChar, Bool.or_eq_true, decide_eq_true_eq] at hw
  rcases hw with ((h1 | h1) | h1) | h1 <;> (subst h1; simp [isDigitChar] at h)

theorem intToChars_head (n : Int) (c : Char) (t : List Char) (h : intToChars n = c :: t) :
    c = '-' ∨ isDigitChar c = true := by
  rw [intToChars] at h
  by_cases hn : n < 0
  · simp only [hn, if_pos] at h
    left
    exact (List.cons_eq_cons.mp h).1.symm
  · simp only [hn, if_neg, if_false] at h
    right
    exact natToChars_digits n.natAbs c (by rw [h]; simp)

theorem numHead_facts (c : Char) (h : c = '-' ∨ isDigitChar c = true) :
    isWsChar c = false ∧ ¬(c = 'n') ∧ ¬(c = 't') ∧ ¬(c = 'f') ∧ ¬(c = '"') ∧
      ¬(c = '[') ∧ ¬(c = '\x7b') := by
  rcases h with h | h
  · subst h
    decide
  · exact ⟨digit_not_ws c h, isDigitChar_ne c 'n' h (by decide),
      isDigitChar_ne c 't' h (by decide), isDigitChar_ne c 'f' h (by decide),
      isDigitChar_ne c '"' h (by decide), isDigitChar_ne c '[' h (by decide),
      isDigitChar_ne c '\x7b' h (by decide)⟩

theorem skipWs_not_ws (c : Char) (l : List Char) (h : isWsChar c = false) :
    skipWs (c :: l) = c :: l := by
  simp [skipWs, List.dropWhile, h]

/-- The head character of an encoded value is never whitespace, a comma,
nor a closing bracket, brace or colon. -/
theorem jsonEncV_head (v : JValue) (c : Char) (t : List Char) (h : jsonEncV v = c :: t) :
    isWsChar c = false ∧ ¬(c = ']') ∧ ¬(c = '\x7d') := by
  cases v with
  | null =>
    rw [jsonEncV] at h
    have hc : c = 'n' := (List.cons_eq_cons.mp h).1.symm
    subst hc
    exact ⟨by decide, by decide, by decide⟩
  | bool b =>
    cases b <;> rw [jsonEncV] at h
    case true =>
      have hc : c = 't' := (List.cons_eq_cons.mp h).1.symm
      subst hc
      exact ⟨by decide, by decide, by decide⟩
    case false =>
      have hc : c = 'f' := (List.cons_eq_cons.mp h).1.symm
      subst hc
      exact ⟨by decide, by decide, by decide⟩
  | num n =>
    rw [jsonEncV] at h
    rcases intToChars_head n c t h with h1 | h1
    · subst h1
      exact ⟨by decide, by decide, by decide⟩
    · exact ⟨digit_not_ws c h1, isDigitChar_ne c ']' h1 (by decide),
        isDigitChar_ne c '\x7d' h1 (by decide)⟩
  | str s =>
    rw [jsonEncV, encodeStr] at h
    have hc : c = '"' := (List.cons_eq_cons.mp h).1.symm
    subst hc
    exact ⟨by decide, by decide, by decide⟩
  | arr xs =>
    rw [jsonEncV] at h
    have hc : c = '[' := (List.cons_eq_cons.mp h).1.symm
    subst hc
    exact ⟨by decide, by decide, by decide⟩
  | obj fs =>
    rw [jsonEncV] at h
    have hc : c = '\x7b' := (List.cons_eq_cons.mp h).1.symm
    subst hc
    exact ⟨by decide, by decide, by decide⟩

theorem skipWs_encV (v : JValue) (r : List Char) :
    skipWs (jsonEncV v ++ r) = jsonEncV v ++ r := by
  rcases hh : jsonEncV v with _ | ⟨c, t⟩
  · exact absurd hh (jsonEncV_ne_nil v)
  · rw [List.cons_append]
    exact skipWs_not_ws c _ (jsonEncV_head v c t hh).1

theorem notDigitStart_nil : notDigitStart [] := by
  intro c h
  cases h

theorem notDigitStart_cons (c : Char) (l : List Char) (h : isDigitChar c = false) :
    notDigitStart (c :: l) := by
  intro x hx
  simp only [List.head?_cons, Option.some_inj] at hx
  rw [← hx]
  exact h

theorem jsizeV_pos (v : JValue) : 1 ≤ jsizeV v := by
  cases v <;> (simp only [jsizeV]; omega)

theorem jsizeA_pos (xs : JArr) : 1 ≤ jsizeA xs := by
  cases xs <;> (simp only [jsizeA]; omega)

theorem jsizeO_pos (fs : JObj) : 1 ≤ jsizeO fs := by
  cases fs <;> (simp only [jsizeO]; omega)

theorem insObj_front (k : String) (v : JValue) (t : JObj) (h : keyLtHead k t = true) :
    insObj k v t = .cons k v t := by
  cases t with
  | nil => rfl
  | cons k2 v2 t2 =>
    rw [keyLtHead] at h
    rw [insObj, if_pos h]

theorem jsonEncA_cons (v : JValue) (t : JArr) :
    jsonEncA (.cons v t) = jsonEncV v ++ arrSep t := by
  cases t <;> simp [jsonEncA, arrSep]

theorem jsonEncO_head (k : String) (v : JValue) (t : JObj) :
    jsonEncO (.cons k v t) = '"' :: (escapeList k.data ++ ('"' :: (':' :: (jsonEncV v ++ objSep t)))) := by
  cases t <;> simp [jsonEncO, objSep, encodeStr]

theorem skipWs_encA (xs : JArr) (r : List Char) :
    skipWs (jsonEncA xs ++ (']' :: r)) = jsonEncA xs ++ (']' :: r) := by
  cases xs with
  | nil =>
    rw [jsonEncA]
    simp only [List.nil_append]
    exact skipWs_not_ws ']' r (by decide)
  | cons v t =>
    rw [jsonEncA_cons, List.append_assoc]
    rcases hh : jsonEncV v with _ | ⟨c, tt⟩
    · exact absurd hh (jsonEncV_ne_nil v)
    · rw [List.cons_append]
      rw [skipWs_not_ws c _ (jsonEncV_head v c tt hh).1]

theorem skipWs_encO (fs : JObj) (r : List Char) :
    skipWs (jsonEncO fs ++ ('\x7d' :: r)) = jsonEncO fs ++ ('\x7d' :: r) := by
  cases fs with
  | nil =>
    rw [jsonEncO]
    simp only [List.nil_append]
    exact skipWs_not_ws '\x7d' r (by decide)
  | cons k v t =>
    rw [jsonEncO_head]
    rw [List.cons_append]
    exact skipWs_not_ws '"' _ (by decide)

mutual
theorem parseVal_enc (v : JValue) (fuel : Nat) (rest : List Char)
    (hc : canonV v = true) (hf : jsizeV v ≤ fuel) (hr : notDigitStart rest) :
    parseVal fuel (jsonEncV v ++ rest) = some (v, rest) := by
  cases fuel with
  | zero =>
    have := jsizeV_pos v
    omega
  | succ f =>
    have hskip := skipWs_encV v rest
    rw [parseVal.eq_2, hskip]
    cases v with
    | null =>
      rw [jsonEncV]
      simp [List.cons_append]
    | bool b =>
      cases b <;> (rw [jsonEncV]; simp [List.cons_append])
    | num n =>
      rcases hsh : intToChars n with _ | ⟨c, t⟩
      · exact absurd hsh (intToChars_ne_nil n)
      · obtain ⟨hws, h1, h2, h3, h4, h5, h6⟩ := numHead_facts c (intToChars_head n c t hsh)
        rw [jsonEncV, hsh, List.cons_append]
        simp only [if_neg h1, if_neg h2, if_neg h3, if_neg h4, if_neg h5, if_neg h6]
        rw [← List.cons_append, ← hsh]
        exact parseNum_intToChars n rest hr
    | str s =>
      rw [jsonEncV, encodeStr]
      simp only [List.cons_append, List.append_assoc, List.singleton_append]
      simp [parseStr_escaped s rest]
    | arr xs =>
      rw [canonV] at hc
      rw [jsizeV] at hf
      rw [jsonEncV]
      simp only [List.cons_append, List.append_assoc, List.singleton_append]
      have hrec := parseArr_enc xs f rest hc (by omega)
      simp [skipWs_encA xs rest, hrec]
    | obj fs =>
      rw [canonV] at hc
      rw [jsizeV] at hf
      rw [jsonEncV]
      simp only [List.cons_append, List.append_assoc, List.singleton_append]
      have hrec := parseObj_enc fs f rest hc (by omega)
      simp [skipWs_encO fs rest, hrec]

theorem parseArr_enc (xs : JArr) (fuel : Nat) (rest : List Char)
    (hc : canonA xs = true) (hf : jsizeA xs ≤ fuel) :
    parseArrElems fuel (jsonEncA xs ++ (']' :: rest)) = some (.arr xs, rest) := by
  cases fuel with
  | zero =>
    have := jsizeA_pos xs
    omega
  | succ f =>
    cases xs with
    | nil =>
      rw [jsonEncA]
      simp [parseArrElems]
    | cons v t =>
      rw [canonA] at hc
      rw [Bool.and_eq_true] at hc
      rw [jsizeA] at hf
      have hfv : jsizeV v ≤ f := by
        have := jsizeA_pos t
        omega
      have hft : jsizeA t ≤ f := by
        have := jsizeV_pos v
        omega
      rcases hh : jsonEncV v with _ | ⟨c, tt⟩
      · exact absurd hh (jsonEncV_ne_nil v)
      · obtain ⟨hws, hrb, hbrc⟩ := jsonEncV_head v c tt hh
        cases t with
        | nil =>
          rw [jsonEncA, hh, List.cons_append, parseArrElems.eq_3, if_neg hrb]
          have hpv : parseVal f (c :: (tt ++ (']' :: rest))) = some (v, ']' :: rest) := by
            rw [← List.cons_append, ← hh]
            exact parseVal_enc v f (']' :: rest) hc.1 hfv
              (notDigitStart_cons ']' _ (by decide))
          rw [hpv]
          simp [skipWs_not_ws ']' rest (by decide)]
        | cons w t2 =>
          rw [jsonEncA_cons, arrSep, List.append_assoc, List.cons_append]
          rw [hh, List.cons_append, parseArrElems.eq_3, if_neg hrb]
          have hpv : parseVal f (c :: (tt ++ (',' :: (jsonEncA (.cons w t2) ++ (']' :: rest)))))
              = some (v, ',' :: (jsonEncA (.cons w t2) ++ (']' :: rest))) := by
            rw [← List.cons_append, ← hh]
            exact parseVal_enc v f _ hc.1 hfv (notDigitStart_cons ',' _ (by decide))
          rw [hpv]
          have hrec := parseArr_enc (.cons w t2) f rest hc.2 hft
          simp [skipWs_not_ws ',' _ (by decide), skipWs_encA (.cons w t2) rest, hrec]

theorem parseObj_enc (fs : JObj) (fuel : Nat) (rest : List Char)
    (hc : canonO fs = true) (hf : jsizeO fs ≤ fuel) :
    parseObjFields fuel (jsonEncO fs ++ ('\x7d' :: rest)) = some (.obj fs, rest) := by
  cases fuel with
  | zero =>
    have := jsizeO_pos fs
    omega
  | succ f =>
    cases fs with
    | nil =>
      rw [jsonEncO]
      simp [parseObjFields]
    | cons k v t =>
      rw [canonO] at hc
      rw [Bool.and_eq_true, Bool.and_eq_true] at hc
      rw [jsizeO] at hf
      have hfv : jsizeV v ≤ f := by
        have := jsizeO_pos t
        omega
      have hft : jsizeO t ≤ f := by
        have := jsizeV_pos v
        omega
      rw [jsonEncO_head, List.cons_append, parseObjFields.eq_3, if_neg (by decide), if_pos rfl]
      simp only [List.append_assoc, List.cons_append]
      rw [parseStr_escaped k (':' :: (jsonEncV v ++ (objSep t ++ ('\x7d' :: rest))))]
      cases t with
      | nil =>
        rw [objSep]
        simp only [List.nil_append]
        have hpv : parseVal f (jsonEncV v ++ ('\x7d' :: rest)) = some (v, '\x7d' :: rest) :=
          parseVal_enc v f _ hc.1 hfv (notDigitStart_cons '\x7d' _ (by decide))
        simp [skipWs_not_ws ':' _ (by decide), hpv,
          skipWs_not_ws '\x7d' rest (by decide), insObj]
      | cons k2 w t2 =>
        rw [objSep]
        simp only [List.cons_append]
        have hpv : parseVal f (jsonEncV v ++ (',' :: (jsonEncO (.cons k2 w t2) ++ ('\x7d' :: rest))))
            = some (v, ',' :: (jsonEncO (.cons k2 w t2) ++ ('\x7d' :: rest))) :=
          parseVal_enc v f _ hc.1 hfv (notDigitStart_cons ',' _ (by decide))
        have hrec := parseObj_enc (.cons k2 w t2) f rest hc.2.1 hft
        have hins := insObj_front k v (.cons k2 w t2) hc.2.2
        simp [skipWs_not_ws ':' _ (by decide), hpv, skipWs_not_ws ',' _ (by decide),
          skipWs_encO (.cons k2 w t2) rest, hrec, hins]
end

/-- Round trip of the codec at the value level: decoding the marshalled
bytes of any canonical (Go-map-representable) value gives the value back. -/
theorem jsonUnmarshal_marshal (v : JValue) (hc : canonV v = true) :
    jsonUnmarshal (jsonMarshal v) = some v := by
  rw [jsonUnmarshal, jsonMarshal]
  have hf : jsizeV v ≤ 2 * (jsonEncV v).length + 2 := by
    have := jsizeV_le v
    omega
  have h := parseVal_enc v (2 * (jsonEncV v).length + 2) [] hc hf notDigitStart_nil
  rw [List.append_nil] at h
  rw [h]
  simp [skipWs]

/-- Round trip at the map[string]interface\x7b\x7d level. -/
theorem jsonUnmarshalMap_marshal (fs : JObj) (hc : canonO fs = true) :
    jsonUnmarshalMap (jsonMarshal (.obj fs)) = some fs := by
  rw [jsonUnmarshalMap, jsonUnmarshal_marshal (.obj fs) (by rw [canonV]; exact hc)]

/-! ### Byte order on keys -/

theorem charListLtb_irrefl (l : List Char) : charListLtb l l = false := by
  induction l with
  | nil => rfl
  | cons c t ih => simp [charListLtb, charLtb, ih]

theorem charListLtb_trans : ∀ (a b c : List Char), charListLtb a b = true →
    charListLtb b c = true → charListLtb a c = true := by
  intro a
  induction a with
  | nil =>
    intro b c h1 h2
    cases b with
    | nil => simp [charListLtb] at h1
    | cons y ys =>
      cases c with
      | nil => simp [charListLtb] at h2
      | cons z zs => simp [charListLtb]
  | cons x xs ih =>
    intro b c h1 h2
    cases b with
    | nil => simp [charListLtb] at h1
    | cons y ys =>
      cases c with
      | nil => simp [charListLtb] at h2
      | cons z zs =>
        rw [charListLtb] at h1 h2 ⊢
        by_cases hxy : charLtb x y = true
        · by_cases hyz : charLtb y z = true
          · rw [if_pos (show charLtb x z = true by
              simp [charLtb] at hxy hyz ⊢; omega)]
          · rw [if_neg hyz] at h2
            by_cases hzy : charLtb z y = true
            · rw [if_pos hzy] at h2; cases h2
            · rw [if_neg hzy] at h2
              rw [if_pos (show charLtb x z = true by
                simp [charLtb] at hxy hyz hzy ⊢; omega)]
        · rw [if_neg hxy] at h1
          by_cases hyx : charLtb y x = true
          · rw [if_pos hyx] at h1; cases h1
          · rw [if_neg hyx] at h1
            by_cases hyz : charLtb y z = true
            · rw [if_pos (show charLtb x z = true by
                simp [charLtb] at hxy hyx hyz ⊢; omega)]
            · rw [if_neg hyz] at h2
              by_cases hzy : charLtb z y = true
              · rw [if_pos hzy] at h2; cases h2
              · rw [if_neg hzy] at h2
                have hxz : ¬(charLtb x z = true) := by
                  simp [charLtb] at hxy hyx hyz hzy ⊢; omega
                have hzx : ¬(charLtb z x = true) := by
                  simp [charLtb] at hxy hyx hyz hzy ⊢; omega
                rw [if_neg hxz, if_neg hzx]
                exact ih ys zs h1 h2

theorem charListLtb_eq_of_not : ∀ (a b : List Char), charListLtb a b = false →
    charListLtb b a = false → a = b := by
  intro a
  induction a with
  | nil =>
    intro b h1 h2
    cases b with
    | nil => rfl
    | cons y ys => simp [charListLtb] at h1
  | cons x xs ih =>
    intro b h1 h2
    cases b with
    | nil => simp [charListLtb] at h2
    | cons y ys =>
      rw [charListLtb] at h1 h2
      by_cases hxy : charLtb x y = true
      · rw [if_pos hxy] at h1; cases h1
      · rw [if_neg hxy] at h1
        by_cases hyx : charLtb y x = true
        · rw [if_pos hyx] at h2; cases h2
        · rw [if_neg hyx] at h1 h2
          rw [if_neg hxy] at h2
          have hxyn : x = y := by
            apply charToNatInj
            simp [charLtb] at hxy hyx
            omega
          rw [hxyn, ih ys h1 h2]

theorem strLtb_irrefl (a : String) : strLtb a a = false :=
  charListLtb_irrefl a.data

theorem strLtb_trans {a b c : String} (h1 : strLtb a b = true) (h2 : strLtb b c = true) :
    strLtb a c = true :=
  charListLtb_trans a.data b.data c.data h1 h2

theorem strLtb_eq_of_not (a b : String) (h1 : strLtb a b = false)
    (h2 : strLtb b a = false) : a = b := by
  cases a; cases b
  congr 1
  exact charListLtb_eq_of_not _ _ h1 h2

theorem strLtb_ne {a b : String} (h : strLtb a b = true) : a ≠ b := by
  intro heq
  subst heq
  rw [strLtb_irrefl] at h
  cases h

theorem kvGet_kvPut_self (st : KV) (k : String) (v : List Char) :
    kvGet (kvPut st k v) k = some v := by
  induction st with
  | nil => simp [kvPut, kvGet]
  | cons e t ih =>
    obtain ⟨k2, v2⟩ := e
    rw [kvPut]
    by_cases h1 : strLtb k k2 = true
    · rw [if_pos h1]; simp [kvGet]
    · rw [if_neg h1]
      by_cases h2 : k = k2
      · rw [if_pos h2]; simp [kvGet]
      · rw [if_neg h2]
        rw [kvGet, if_neg (fun hh => h2 hh.symm)]
        exact ih

theorem kvSortedB_tail (k : String) (v : List Char) (t : KV)
    (h : kvSortedB ((k, v) :: t) = true) : kvSortedB t = true := by
  cases t with
  | nil => rfl
  | cons e t2 =>
    obtain ⟨k2, v2⟩ := e
    rw [kvSortedB, Bool.and_eq_true] at h
    exact h.2

theorem kvSortedB_head_lt (k : String) (v : List Char) (t : KV)
    (h : kvSortedB ((k, v) :: t) = true) : ∀ e ∈ t, strLtb k e.1 = true := by
  induction t generalizing k v with
  | nil => intro e he; cases he
  | cons e2 t2 ih =>
    obtain ⟨k2, v2⟩ := e2
    intro e he
    rw [kvSortedB, Bool.and_eq_true] at h
    rw [List.mem_cons] at he
    rcases he with he | he
    · rw [he]
      exact h.1
    · exact strLtb_trans h.1 (ih k2 v2 h.2 e he)

theorem countKey_zero_of_all_gt (st : KV) (k : String)
    (h : ∀ e ∈ st, strLtb k e.1 = true) : countKey st k = 0 := by
  induction st with
  | nil => rfl
  | cons e t ih =>
    obtain ⟨k2, v2⟩ := e
    rw [countKey]
    have hne : ¬(k2 = k) := fun hh => strLtb_ne (h (k2, v2) (by simp)) hh.symm
    rw [if_neg hne, ih (fun e2 he2 => h e2 (List.mem_cons_of_mem _ he2))]

theorem countKey_le_one (st : KV) (k : String) (hs : kvSortedB st = true) :
    countKey st k ≤ 1 := by
  induction st with
  | nil => simp [countKey]
  | cons e t ih =>
    obtain ⟨k2, v2⟩ := e
    rw [countKey]
    by_cases h2 : k2 = k
    · subst h2
      rw [if_pos rfl]
      rw [countKey_zero_of_all_gt t k2 (kvSortedB_head_lt k2 v2 t hs)]
    · rw [if_neg h2]
      have := ih (kvSortedB_tail k2 v2 t hs)
      omega

theorem countKey_pos_of_get (st : KV) (k : String) (v : List Char)
    (h : kvGet st k = some v) : 1 ≤ countKey st k := by
  induction st with
  | nil => simp [kvGet] at h
  | cons e t ih =>
    obtain ⟨k2, v2⟩ := e
    rw [kvGet] at h
    rw [countKey]
    by_cases h2 : k2 = k
    · rw [if_pos h2]; omega
    · rw [if_neg h2] at h ⊢
      have := ih h
      omega

theorem kvPut_headKey (t : KV) (k : String) (v : List Char) :
    (∃ t2, kvPut t k v = (k, v) :: t2) ∨
    (∃ k2 v2 t2 t3, t = (k2, v2) :: t2 ∧ kvPut t k v = (k2, v2) :: t3) := by
  cases t with
  | nil => exact Or.inl ⟨[], rfl⟩
  | cons e t2 =>
    obtain ⟨k2, v2⟩ := e
    rw [kvPut]
    by_cases h1 : strLtb k k2 = true
    · rw [if_pos h1]; exact Or.inl ⟨(k2, v2) :: t2, rfl⟩
    · rw [if_neg h1]
      by_cases h2 : k = k2
      · rw [if_pos h2]; exact Or.inl ⟨t2, rfl⟩
      · rw [if_neg h2]; exact Or.inr ⟨k2, v2, t2, kvPut t2 k v, rfl, rfl⟩

theorem kvPut_sorted (st : KV) (k : String) (v : List Char) (hs : kvSortedB st = true) :
    kvSortedB (kvPut st k v) = true := by
  induction st with
  | nil => rfl
  | cons e t ih =>
    obtain ⟨k2, v2⟩ := e
    rw [kvPut]
    by_cases h1 : strLtb k k2 = true
    · rw [if_pos h1]
      rw [kvSortedB, Bool.and_eq_true]
      exact ⟨h1, hs⟩
    · rw [if_neg h1]
      by_cases h2 : k = k2
      · rw [if_pos h2]
        subst h2
        cases t with
        | nil => rfl
        | cons e3 t3 =>
          obtain ⟨k3, v3⟩ := e3
          rw [kvSortedB, Bool.and_eq_true] at hs ⊢
          exact hs
      · rw [if_neg h2]
        have hlt : strLtb k2 k = true := by
          rcases hb : strLtb k2 k with _ | _
          · exact absurd (strLtb_eq_of_not k k2
              (by rcases hc2 : strLtb k k2 with _ | _; rfl; exact absurd hc2 h1) hb).symm
              (fun hh => h2 hh.symm)
          · rfl
        have hst := ih (kvSortedB_tail k2 v2 t hs)
        rcases kvPut_headKey t k v with ⟨t3, hput⟩ | ⟨k3, v3, t3, t4, ht, hput⟩
        · rw [hput] at hst ⊢
          rw [kvSortedB, Bool.and_eq_true]
          exact ⟨hlt, hst⟩
        · rw [hput] at hst ⊢
          rw [kvSortedB, Bool.and_eq_true]
          constructor
          · subst ht
            rw [kvSortedB, Bool.and_eq_true] at hs
            exact hs.1
          · exact hst

theorem kvPut_perm (st : KV) (k : String) (v : List Char)
    (h : countKey st k = 0) : List.Perm (kvPut st k v) ((k, v) :: st) := by
  induction st with
  | nil => exact List.Perm.refl _
  | cons e t ih =>
    obtain ⟨k2, v2⟩ := e
    rw [countKey] at h
    have hne : ¬(k2 = k) := by
      intro hh
      rw [if_pos hh] at h
      omega
    have ht : countKey t k = 0 := by
      rw [if_neg hne] at h
      omega
    rw [kvPut]
    by_cases h1 : strLtb k k2 = true
    · rw [if_pos h1]
    · rw [if_neg h1]
      rw [if_neg (fun hh => hne hh.symm)]
      exact List.Perm.trans (List.Perm.cons (k2, v2) (ih ht)) (List.Perm.swap _ _ _)

theorem countKey_kvPut_ne (st : KV) (k2 : String) (v : List Char) (k : String)
    (h : ¬(k = k2)) : countKey (kvPut st k2 v) k = countKey st k := by
  induction st with
  | nil =>
    simp only [kvPut, countKey]
    rw [if_neg (fun hh : k2 = k => h hh.symm)]
  | cons e t ih =>
    obtain ⟨k3, v3⟩ := e
    rw [kvPut]
    by_cases h1 : strLtb k2 k3 = true
    · rw [if_pos h1]
      rw [countKey, countKey, if_neg (fun hh => h hh.symm)]
      omega
    · rw [if_neg h1]
      by_cases h2 : k2 = k3
      · rw [if_pos h2]
        rw [countKey, countKey, if_neg (fun hh => h hh.symm)]
        rw [if_neg (fun hh : k3 = k => h (h2.trans hh).symm)]
      · rw [if_neg h2]
        rw [countKey, countKey, ih]

/-! ### Namespace keys and scan lemmas -/

theorem isTraceKey_traceKey (id : String) : isTraceKey (traceKey id) = true := by
  rw [isTraceKey, traceKey, String.data_append]
  have h6 : ("trace:").data.length = 6 := by decide
  rw [← h6, List.take_left]
  simp

theorem traceKey_inj (a b : String) (h : traceKey a = traceKey b) : a = b := by
  rw [traceKey, traceKey] at h
  have hd : ("trace:" ++ a).data = ("trace:" ++ b).data := by rw [h]
  rw [String.data_append, String.data_append] at hd
  have h2 := List.append_cancel_left hd
  cases a; cases b
  congr 1

theorem getStatsLoop_eq (l : List (String × List Char))
    (hall : ∀ e ∈ l, (jsonUnmarshalMap e.2).isSome = true)
    (hkeys : ∀ e ∈ l, isTraceKey e.1 = true) :
    getStatsLoop l = some (l.length, spanSum l, sizeSum l) := by
  induction l with
  | nil => rfl
  | cons e t ih =>
    obtain ⟨k, v⟩ := e
    rw [getStatsLoop, if_pos (hkeys (k, v) (by simp))]
    rcases hu : jsonUnmarshalMap v with _ | t0
    · have hs := hall (k, v) (by simp)
      rw [hu] at hs
      cases hs
    · rw [ih (fun e2 he2 => hall e2 (List.mem_cons_of_mem _ he2))
        (fun e2 he2 => hkeys e2 (List.mem_cons_of_mem _ he2))]
      simp [spanSum, sizeSum, decodedRec, hu]
      try omega

theorem getTracesLoop_length (l : List (String × List Char)) :
    ∀ (count limit : Int) (ts : List JObj), getTracesLoop l count limit = some ts →
      (ts.length : Int) ≤ max (limit - count) 0 := by
  induction l with
  | nil =>
    intro count limit ts h
    rw [getTracesLoop] at h
    have : ts = [] := by
      rw [Option.some_inj] at h
      exact h.symm
    rw [this]
    simp
  | cons e t ih =>
    obtain ⟨k, v⟩ := e
    intro count limit ts h
    rw [getTracesLoop] at h
    by_cases hlim : count < limit
    · rw [if_pos hlim] at h
      by_cases hk : isTraceKey k = true
      · rw [if_pos hk] at h
        rcases hu : jsonUnmarshalMap v with _ | t0
        · rw [hu] at h; cases h
        · rw [hu] at h
          rcases hrec : getTracesLoop t (count + 1) limit with _ | ts2
          · rw [hrec] at h; cases h
          · rw [hrec] at h
            rw [Option.some_inj] at h
            have hlen := ih (count + 1) limit ts2 hrec
            rw [← h]
            simp only [List.length_cons]
            push_cast
            omega
      · rw [if_neg hk] at h
        exact ih count limit ts h
    · rw [if_neg hlim] at h
      rw [Option.some_inj] at h
      rw [← h]
      simp

theorem getTracesLoop_all (l : List (String × List Char)) :
    ∀ (count limit : Int),
    (∀ e ∈ l, (jsonUnmarshalMap e.2).isSome = true) →
    (∀ e ∈ l, isTraceKey e.1 = true) →
    count + l.length ≤ limit →
    getTracesLoop l count limit = some (l.map decodedRec) := by
  induction l with
  | nil => intro count limit _ _ _; rfl
  | cons e t ih =>
    obtain ⟨k, v⟩ := e
    intro count limit hall hkeys hlim
    rw [getTracesLoop]
    rw [if_pos (show count < limit by simp at hlim; omega)]
    rw [if_pos (hkeys (k, v) (by simp))]
    rcases hu : jsonUnmarshalMap v with _ | t0
    · have hs := hall (k, v) (by simp)
      rw [hu] at hs
      cases hs
    · rw [ih (count + 1) limit (fun e2 he2 => hall e2 (List.mem_cons_of_mem _ he2))
        (fun e2 he2 => hkeys e2 (List.mem_cons_of_mem _ he2))
        (by simp at hlim ⊢; omega)]
      simp only [List.map_cons, decodedRec, hu, Option.getD_some]

theorem getTracesLoop_err (pre : List (String × List Char)) :
    ∀ (count limit : Int) (k : String) (v : List Char) (post : List (String × List Char)),
    (∀ e ∈ pre, (jsonUnmarshalMap e.2).isSome = true) →
    (∀ e ∈ pre, isTraceKey e.1 = true) →
    isTraceKey k = true →
    jsonUnmarshalMap v = none →
    count + pre.length < limit →
    getTracesLoop (pre ++ (k, v) :: post) count limit = none := by
  induction pre with
  | nil =>
    intro count limit k v post _ _ hk hbad hlim
    rw [List.nil_append, getTracesLoop]
    rw [if_pos (show count < limit by simp at hlim; omega), if_pos hk, hbad]
  | cons e t ih =>
    obtain ⟨k2, v2⟩ := e
    intro count limit k v post hall hkeys hk hbad hlim
    rw [List.cons_append, getTracesLoop]
    rw [if_pos (show count < limit by simp at hlim; omega)]
    rw [if_pos (hkeys (k2, v2) (by simp))]
    rcases hu : jsonUnmarshalMap v2 with _ | t0
    · rfl
    · rw [ih (count + 1) limit k v post (fun e2 he2 => hall e2 (List.mem_cons_of_mem _ he2))
        (fun e2 he2 => hkeys e2 (List.mem_cons_of_mem _ he2)) hk hbad
        (by simp at hlim ⊢; omega)]

theorem getTracesLoop_nonpos (l : List (String × List Char)) (count limit : Int)
    (h : limit ≤ count) : getTracesLoop l count limit = some [] := by
  cases l with
  | nil => rfl
  | cons e t =>
    obtain ⟨k, v⟩ := e
    rw [getTracesLoop, if_neg (by omega)]

/-! ### Sequences of StoreTrace calls -/

theorem StoreTrace_eq (st : KV) (trace : JObj) (id : String)
    (h : lookupObj trace ("trace_id") = some (.str id)) :
    StoreTrace st trace = (.ok (), kvPut st (traceKey id) (jsonMarshal (.obj trace))) := by
  rw [StoreTrace, h]

theorem kvPut_subset (st : KV) (k : String) (v : List Char) :
    ∀ e ∈ kvPut st k v, e = (k, v) ∨ e ∈ st := by
  induction st with
  | nil =>
    intro e he
    rw [kvPut] at he
    simp at he
    exact Or.inl he
  | cons e2 t ih =>
    obtain ⟨k2, v2⟩ := e2
    intro e he
    rw [kvPut] at he
    by_cases h1 : strLtb k k2 = true
    · rw [if_pos h1] at he
      rw [List.mem_cons] at he
      rcases he with he | he
      · exact Or.inl he
      · exact Or.inr he
    · rw [if_neg h1] at he
      by_cases h2 : k = k2
      · rw [if_pos h2] at he
        rw [List.mem_cons] at he
        rcases he with he | he
        · exact Or.inl he
        · exact Or.inr (List.mem_cons_of_mem _ he)
      · rw [if_neg h2] at he
        rw [List.mem_cons] at he
        rcases he with he | he
        · exact Or.inr (by rw [he]; simp)
        · rcases ih e he with h3 | h3
          · exact Or.inl h3
          · exact Or.inr (List.mem_cons_of_mem _ h3)

theorem storeAll_spec (ps : List (String × JObj)) : ∀ (st : KV),
    kvSortedB st = true →
    (∀ p ∈ ps, lookupObj p.2 ("trace_id") = some (.str p.1)) →
    (∀ p ∈ ps, countKey st (traceKey p.1) = 0) →
    List.Pairwise (fun a b => a.1 ≠ b.1) ps →
    kvSortedB (storeAll (ps.map Prod.snd) st) = true ∧
    List.Perm (storeAll (ps.map Prod.snd) st)
      ((ps.map fun p => (traceKey p.1, jsonMarshal (.obj p.2))) ++ st) := by
  induction ps with
  | nil =>
    intro st hs _ _ _
    exact ⟨hs, by simp [storeAll]⟩
  | cons p ps ih =>
    intro st hs hid hcnt hnd
    obtain ⟨id, t⟩ := p
    rw [List.map_cons, storeAll, List.foldl_cons]
    rw [List.pairwise_cons] at hnd
    have hst : (StoreTrace st t).2 = kvPut st (traceKey id) (jsonMarshal (.obj t)) := by
      rw [StoreTrace_eq st t id (hid (id, t) (by simp))]
    rw [hst]
    have hs2 : kvSortedB (kvPut st (traceKey id) (jsonMarshal (.obj t))) = true :=
      kvPut_sorted st _ _ hs
    have hcnt2 : ∀ p2 ∈ ps, countKey (kvPut st (traceKey id) (jsonMarshal (.obj t)))
        (traceKey p2.1) = 0 := by
      intro p2 hp2
      rw [countKey_kvPut_ne st _ _ _
        (fun hh => hnd.1 p2 hp2 (traceKey_inj _ _ hh).symm)]
      exact hcnt p2 (List.mem_cons_of_mem _ hp2)
    obtain ⟨hsr, hpr⟩ := ih (kvPut st (traceKey id) (jsonMarshal (.obj t))) hs2
      (fun p2 hp2 => hid p2 (List.mem_cons_of_mem _ hp2)) hcnt2 hnd.2
    refine ⟨by rw [storeAll] at hsr; exact hsr, ?_⟩
    rw [storeAll] at hpr
    rw [List.map_cons, List.cons_append]
    have hput : List.Perm (kvPut st (traceKey id) (jsonMarshal (.obj t)))
        ((traceKey id, jsonMarshal (.obj t)) :: st) :=
      kvPut_perm st _ _ (hcnt (id, t) (by simp))
    exact hpr.trans ((List.Perm.append_left _ hput).trans List.perm_middle)

theorem scanStore_key (st : KV) (e : String × List Char) (h : e ∈ scanStore st) :
    isTraceKey e.1 = true := by
  rw [scanStore] at h
  simpa using (List.mem_filter.mp h).2

/-! ### The claims -/

/-- C1, as stated, is false on the code: with three stored records whose
middle one is corrupt at the byte level, GetTraces(10) fails with the
unmarshal error instead of skipping the corrupt record and returning the
other two. -/
theorem c1_counterexample : GetTraces c1State 10 = .error .unmarshalFailed := by decide

/-- C1 (amended): a corrupt record encountered mid-scan, before the
count limit is reached, aborts the whole listing: GetTraces propagates
the per-record unmarshal failure as its own error. -/
theorem c1_amended (st : KV) (limit : Int) (pre post : List (String × List Char))
    (k : String) (v : List Char)
    (hscan : scanStore st = pre ++ (k, v) :: post)
    (hpre : ∀ e ∈ pre, (jsonUnmarshalMap e.2).isSome = true)
    (hlen : (pre.length : Int) < limit)
    (hbad : jsonUnmarshalMap v = none) :
    GetTraces st limit = .error .unmarshalFailed := by
  have hkeys : ∀ e ∈ pre, isTraceKey e.1 = true := by
    intro e he
    refine scanStore_key st e ?_
    rw [hscan]
    exact List.mem_append_left _ he
  have hk : isTraceKey k = true := by
    refine scanStore_key st (k, v) ?_
    rw [hscan]
    simp
  rw [GetTraces, hscan,
    getTracesLoop_err pre 0 limit k v post hpre hkeys hk hbad (by simp; omega)]

theorem c1_amended_witness : GetTraces c1State 10 = .error .unmarshalFailed := by
  refine c1_amended c1State 10 [(traceKey ("a"), jsonMarshal (.obj (exTrace ("a") .nil)))]
    [(traceKey ("c"), jsonMarshal (.obj (exTrace ("c") .nil)))] (traceKey ("b"))
    corruptBytes ?_ ?_ ?_ ?_ <;> decide

/-- C2, as stated, is false on the code: GetTraces performs no limit
validation, so a non-positive limit succeeds with the empty listing
instead of failing with a validation error. -/
theorem c2_counterexample : GetTraces c2State 0 = Except.ok [] := by decide

/-- C2 (amended): for every non-positive limit, GetTraces succeeds and
returns the empty listing (the loop guard count < limit fails at once);
no ValidationError is produced. -/
theorem c2_amended (st : KV) (limit : Int) (h : limit ≤ 0) :
    GetTraces st limit = .ok [] := by
  rw [GetTraces, getTracesLoop_nonpos _ 0 limit (by omega)]

theorem c2_amended_witness : GetTraces c2State (-5) = .ok [] :=
  c2_amended c2State (-5) (by decide)

/-- C3, as stated, is false on the code: the type assertion
trace["trace_id"].(string) succeeds on the empty string, so StoreTrace
accepts an empty trace_id and persists a record under the bare
namespace key "trace:". -/
theorem c3_counterexample :
    (StoreTrace [] c3Trace).1 = .ok () ∧
    (StoreTrace [] c3Trace).2 = [(("trace:"), jsonMarshal (.obj c3Trace))] := by
  exact ⟨by decide, by decide⟩

/-- C3 (amended): StoreTrace succeeds for every trace whose trace_id is
a string - the empty string included - persisting the encoded record
under "trace:" + id; the validation failure occurs only for an absent
or non-string trace_id. -/
theorem c3_amended (st : KV) (trace : JObj) (id : String)
    (h : lookupObj trace ("trace_id") = some (.str id)) :
    StoreTrace st trace = (.ok (), kvPut st (traceKey id) (jsonMarshal (.obj trace))) := by
  rw [StoreTrace, h]

theorem c3_amended_witness :
    StoreTrace [] c3Trace = (.ok (), kvPut [] (traceKey ("")) (jsonMarshal (.obj c3Trace))) :=
  c3_amended [] c3Trace ("") (by decide)

/-- C4, as stated, is false on the code: the statistics map has no
storage_size_bytes field; the byte total is exposed only as the
human-readable string storage_size, formatted "%.2f MB". -/
theorem c4_counterexample :
    GetStats ([] : KV) = .ok (.cons ("storage_size") (.str ("0.00 MB"))
        (.cons ("total_spans") (.num 0) (.cons ("total_traces") (.num 0) .nil))) ∧
    lookupObj (.cons ("storage_size") (.str ("0.00 MB"))
        (.cons ("total_spans") (.num 0) (.cons ("total_traces") (.num 0) .nil)))
      ("storage_size_bytes") = none := by
  exact ⟨by decide, by decide⟩

/-- C4 (amended): when every stored record decodes, GetStats returns the
three fields total_traces, total_spans and storage_size, where
storage_size is the formatted "%.2f MB" rendering of the summed raw
byte lengths (not a raw byte count, and not named storage_size_bytes). -/
theorem c4_amended (st : KV)
    (hall : ∀ e ∈ scanStore st, (jsonUnmarshalMap e.2).isSome = true) :
    GetStats st = .ok (.cons ("storage_size") (.str (formatMB (sizeSum (scanStore st))))
        (.cons ("total_spans") (.num ((spanSum (scanStore st) : Int)))
        (.cons ("total_traces") (.num (((scanStore st).length : Int))) .nil))) := by
  rw [GetStats, getStatsLoop_eq (scanStore st) hall (fun e he => scanStore_key st e he)]

theorem c4_amended_witness :
    GetStats c4State = .ok (.cons ("storage_size") (.str ("0.00 MB"))
        (.cons ("total_spans") (.num 1) (.cons ("total_traces") (.num 1) .nil))) := by
  have h := c4_amended c4State (by decide)
  rw [h]
  decide

/-- C5: storing twice under the same trace id leaves exactly one record
retrievable at that id, and GetTrace returns the second write
(last-writer-wins, no merge). -/
theorem c5_overwrite (st : KV) (id : String) (t1 t2 : JObj)
    (hs : kvSortedB st = true)
    (h1 : lookupObj t1 ("trace_id") = some (.str id))
    (h2 : lookupObj t2 ("trace_id") = some (.str id))
    (hne : t1 ≠ t2)
    (hc : canonO t2 = true) :
    GetTrace ((StoreTrace ((StoreTrace st t1).2) t2).2) id = .ok t2 ∧
    countKey ((StoreTrace ((StoreTrace st t1).2) t2).2) (traceKey id) = 1 := by
  have h21 : (StoreTrace st t1).2 = kvPut st (traceKey id) (jsonMarshal (.obj t1)) := by
    rw [StoreTrace_eq st t1 id h1]
  rw [h21]
  have h22 : (StoreTrace (kvPut st (traceKey id) (jsonMarshal (.obj t1))) t2).2
      = kvPut (kvPut st (traceKey id) (jsonMarshal (.obj t1))) (traceKey id)
          (jsonMarshal (.obj t2)) := by
    rw [StoreTrace_eq _ t2 id h2]
  rw [h22]
  constructor
  · rw [GetTrace, kvGet_kvPut_self]
    show (match jsonUnmarshalMap (jsonMarshal (.obj t2)) with
      | some t => Except.ok t
      | none => Except.error StoreErr.unmarshalFailed) = Except.ok t2
    rw [jsonUnmarshalMap_marshal t2 hc]
  · have hs2 : kvSortedB (kvPut (kvPut st (traceKey id) (jsonMarshal (.obj t1)))
        (traceKey id) (jsonMarshal (.obj t2))) = true :=
      kvPut_sorted _ _ _ (kvPut_sorted _ _ _ hs)
    have hle := countKey_le_one _ (traceKey id) hs2
    have hpos := countKey_pos_of_get
      (kvPut (kvPut st (traceKey id) (jsonMarshal (.obj t1))) (traceKey id)
        (jsonMarshal (.obj t2)))
      (traceKey id) (jsonMarshal (.obj t2))
      (kvGet_kvPut_self (kvPut st (traceKey id) (jsonMarshal (.obj t1))) (traceKey id)
        (jsonMarshal (.obj t2)))
    omega

theorem c5_witness :
    GetTrace ((StoreTrace ((StoreTrace [] c5t1).2) c5t2).2) ("t1") = .ok c5t2 ∧
    countKey ((StoreTrace ((StoreTrace [] c5t1).2) c5t2).2) (traceKey ("t1")) = 1 := by
  refine c5_overwrite [] ("t1") c5t1 c5t2 ?_ ?_ ?_ ?_ ?_ <;> decide

/-- C6: after storing N traces with distinct ids from the empty store,
GetStats reports total_traces = N and total_spans equal to the exact sum
of the stored traces' span counts. -/
theorem c6_stats (ps : List (String × JObj))
    (hid : ∀ p ∈ ps, lookupObj p.2 ("trace_id") = some (.str p.1))
    (hcanon : ∀ p ∈ ps, canonO p.2 = true)
    (hnd : List.Pairwise (fun a b => a.1 ≠ b.1) ps) :
    ∃ sz : String,
      GetStats (storeAll (ps.map Prod.snd) []) =
        .ok (.cons ("storage_size") (.str sz)
            (.cons ("total_spans") (.num (((ps.map fun p => spanCount p.2).sum : Int)))
            (.cons ("total_traces") (.num ((ps.length : Int))) .nil))) := by
  obtain ⟨hsorted, hperm⟩ := storeAll_spec ps [] rfl hid (fun p _ => rfl) hnd
  rw [List.append_nil] at hperm
  have hmem : ∀ e ∈ storeAll (ps.map Prod.snd) [],
      ∃ p ∈ ps, e = (traceKey p.1, jsonMarshal (.obj p.2)) := by
    intro e he
    have he2 := hperm.mem_iff.mp he
    rcases List.mem_map.mp he2 with ⟨p, hp, hpe⟩
    exact ⟨p, hp, hpe.symm⟩
  have hkeys : ∀ e ∈ storeAll (ps.map Prod.snd) [], isTraceKey e.1 = true := by
    intro e he
    rcases hmem e he with ⟨p, hp, hpe⟩
    rw [hpe]
    exact isTraceKey_traceKey p.1
  have hscan : scanStore (storeAll (ps.map Prod.snd) []) = storeAll (ps.map Prod.snd) [] := by
    rw [scanStore]
    exact List.filter_eq_self.mpr (fun e he => by simpa using hkeys e he)
  have hall : ∀ e ∈ storeAll (ps.map Prod.snd) [], (jsonUnmarshalMap e.2).isSome = true := by
    intro e he
    rcases hmem e he with ⟨p, hp, hpe⟩
    rw [hpe]
    show (jsonUnmarshalMap (jsonMarshal (.obj p.2))).isSome = true
    rw [jsonUnmarshalMap_marshal p.2 (hcanon p hp)]
    rfl
  have hlen : (storeAll (ps.map Prod.snd) []).length = ps.length := by
    rw [hperm.length_eq, List.length_map]
  have hspan : spanSum (storeAll (ps.map Prod.snd) []) = (ps.map fun p => spanCount p.2).sum := by
    rw [spanSum]
    rw [(hperm.map fun e => spanCount (decodedRec e)).sum_eq]
    rw [List.map_map]
    congr 1
    refine List.map_congr_left ?_
    intro p hp
    show spanCount (decodedRec (traceKey p.1, jsonMarshal (.obj p.2))) = spanCount p.2
    rw [decodedRec]
    show spanCount ((jsonUnmarshalMap (jsonMarshal (.obj p.2))).getD .nil) = spanCount p.2
    rw [jsonUnmarshalMap_marshal p.2 (hcanon p hp), Option.getD_some]
  refine ⟨formatMB (sizeSum (storeAll (ps.map Prod.snd) [])), ?_⟩
  rw [GetStats, hscan, getStatsLoop_eq _ hall hkeys]
  show Except.ok (JObj.cons ("storage_size")
      (JValue.str (formatMB (sizeSum (storeAll (ps.map Prod.snd) []))))
      (JObj.cons ("total_spans")
        (JValue.num ((spanSum (storeAll (ps.map Prod.snd) []) : Int)))
      (JObj.cons ("total_traces")
        (JValue.num (((storeAll (ps.map Prod.snd) []).length : Int))) JObj.nil)))
    = Except.ok (JObj.cons ("storage_size")
      (JValue.str (formatMB (sizeSum (storeAll (ps.map Prod.snd) []))))
      (JObj.cons ("total_spans")
        (JValue.num (((ps.map fun p => spanCount p.2).sum : Int)))
      (JObj.cons ("total_traces") (JValue.num ((ps.length : Int))) JObj.nil)))
  rw [hspan, hlen]

theorem c6_witness :
    ∃ sz : String, GetStats (storeAll (c6ps.map Prod.snd) []) =
      .ok (.cons ("storage_size") (.str sz)
          (.cons ("total_spans") (.num 3)
          (.cons ("total_traces") (.num 2) .nil))) := by
  obtain ⟨sz, hsz⟩ := c6_stats c6ps (by decide) (by decide) (by decide)
  have h3 : (((c6ps.map fun p => spanCount p.2).sum : Nat) : Int) = 3 := by decide
  have h4 : ((c6ps.length : Nat) : Int) = 2 := by decide
  rw [h3, h4] at hsz
  exact ⟨sz, hsz⟩

/-- C7, as stated over every store state, is false on the code: in a
state holding two records of which one is byte-corrupt, the limit 10
covers the whole stored count, yet GetTraces returns none of the stored
traces - it aborts with the unmarshal error. -/
theorem c7_counterexample :
    (scanStore c7BadState).length = 2 ∧
    GetTraces c7BadState 10 = .error .unmarshalFailed := by
  exact ⟨by decide, by decide⟩

/-- C7 (amended): GetTraces never returns more than limit traces, over
every store state; and it returns all stored traces when limit is at
least the stored count and every stored record decodes - when a
corrupt record is present the listing instead aborts with an error. -/
theorem c7_listing (st : KV) (limit : Int) :
    (∀ ts, GetTraces st limit = .ok ts → ts.length ≤ limit.toNat) ∧
    ((∀ e ∈ scanStore st, (jsonUnmarshalMap e.2).isSome = true) →
      ((scanStore st).length : Int) ≤ limit →
      GetTraces st limit = .ok ((scanStore st).map decodedRec)) := by
  constructor
  · intro ts h
    rw [GetTraces] at h
    rcases hl : getTracesLoop (scanStore st) 0 limit with _ | ts2
    · rw [hl] at h
      cases h
    · rw [hl] at h
      have h2 : (Except.ok ts2 : Except StoreErr (List JObj)) = .ok ts := h
      have h3 : ts2 = ts := by
        cases h2
        rfl
      have hb := getTracesLoop_length (scanStore st) 0 limit ts2 hl
      rw [h3] at hb
      omega
  · intro hall hlen
    rw [GetTraces, getTracesLoop_all (scanStore st) 0 limit hall
      (fun e he => scanStore_key st e he) (by omega)]

theorem c7_witness :
    GetTraces c7State 10 = .ok ((scanStore c7State).map decodedRec) ∧
    ((scanStore c7State).map decodedRec).length ≤ (10 : Int).toNat := by
  have h := c7_listing c7State 10
  have h2 := h.2 (by decide) (by decide)
  exact ⟨h2, h.1 _ h2⟩

/-- C8: the codec round trip: unmarshalling the marshalled bytes of any
canonical trace map returns the same trace map. -/
theorem c8_roundtrip (t : JObj) (hc : canonO t = true) :
    jsonUnmarshalMap (jsonMarshal (.obj t)) = some t :=
  jsonUnmarshalMap_marshal t hc

theorem c8_roundtrip_witness :
    jsonUnmarshalMap (jsonMarshal (.obj c5t1)) = some c5t1 :=
  c8_roundtrip c5t1 (by decide)

/-- C9: GetTrace on an id with no stored record fails with the
not-found error - never another error kind, never an empty success. -/
theorem c9_notfound (st : KV) (id : String) (h : kvGet st (traceKey id) = none) :
    GetTrace st id = .error .traceNotFound := by
  rw [GetTrace, h]

theorem c9_notfound_witness :
    GetTrace [] ("nonexistent") = .error .traceNotFound :=
  c9_notfound [] ("nonexistent") rfl

/-- C10: when trace_id is absent or not a string, StoreTrace fails
before any write and leaves the snapshot unchanged: no partial record
is ever persisted. -/
theorem c10_invalid_id (st : KV) (trace : JObj)
    (h : lookupObj trace ("trace_id") = none ∨
      ∃ v, lookupObj trace ("trace_id") = some v ∧ ∀ s, v ≠ .str s) :
    StoreTrace st trace = (.error .traceIdRequired, st) := by
  rw [StoreTrace]
  rcases h with h | ⟨v, hv, hns⟩
  · rw [h]
  · rw [hv]
    cases v with
    | str s => exact absurd rfl (hns s)
    | null => rfl
    | bool b => rfl
    | num n => rfl
    | arr xs => rfl
    | obj fs => rfl

theorem c10_invalid_id_witness :
    StoreTrace [] c10Trace = (.error .traceIdRequired, []) :=
  c10_invalid_id [] c10Trace (Or.inr ⟨.num 7, rfl, fun s h => by cases h⟩)
